import Mathlib

/-!
Verification of `search.py` (koga2020a/grep_search): a whole-word multi-keyword
directory search with an Excel report renderer.  The Python source is embedded
shallowly: strings become `List Char`, the compiled regular expression
`re.compile(rf'\b{re.escape(keyword)}\b')` becomes a token list interpreted by a
small matcher, `os.walk` becomes a structural walk over a directory tree, and
the imperative accumulation loops of `search_files` / `save_results_to_excel`
become folds over explicit state.
-/

namespace GrepSearch

/-- Python strings, modelled as lists of characters. -/
abbrev Str := List Char

/-- The ASCII word characters (letters, digits, underscore).  Python's `\w`
on `str` patterns is Unicode-aware and its full classification cannot be
tabulated here, so the matcher below is parametric in the word-character
classifier; this ASCII fragment — exact on ASCII text — instantiates the
executable matcher used by the scanner. -/
def isWordChar (c : Char) : Bool :=
  c.isAlphanum || c = '_'

/-- Whether the character at (0-based) index `j` of `s` is a word character
according to the classifier `w`; out-of-range counts as non-word. -/
def isWordAtW (w : Char → Bool) (s : Str) (j : Nat) : Bool :=
  match s.drop j with
  | [] => false
  | c :: _ => w c

/-- Whether the character immediately before position `i` is a word character
(the position before index 0 counts as non-word). -/
def wordBeforeW (w : Char → Bool) (s : Str) (i : Nat) : Bool :=
  match i with
  | 0 => false
  | j + 1 => isWordAtW w s j

/-- The `\b` assertion of Python `re`, relative to the word-character
classifier `w`: position `i` (between characters) is a word boundary iff
exactly one of its two neighbours is a word character. -/
def wordBoundaryW (w : Char → Bool) (s : Str) (i : Nat) : Bool :=
  wordBeforeW w s i != isWordAtW w s i

/-- The characters Python 3.7+ `re.escape` prefixes with a backslash
(`_special_chars_map`: `()[]{}?*+-|^$\.&~#` and ASCII whitespace). -/
def reSpecialChars : Str :=
  ['(', ')', '[', ']', '\x7b', '\x7d', '?', '*', '+', '-', '|', '^', '$',
   '\\', '.', '&', '~', '#', ' ', '\t', '\n', '\r', '\x0b', '\x0c']

/-- Python `re.escape`: backslash-escape every regex metacharacter, leave
everything else untouched. -/
def re_escape : Str → Str
  | [] => []
  | c :: cs =>
    if c ∈ reSpecialChars then '\\' :: c :: re_escape cs
    else c :: re_escape cs

/-- The pattern text built at `search.py:129`:
`rf'\b{re.escape(keyword)}\b'`. -/
def patternText (kw : Str) : Str :=
  '\\' :: 'b' :: re_escape kw ++ ['\\', 'b']

/-- Tokens of the regex fragment these patterns live in: the `\b` assertion,
a literal character, and the `.` any-character metacharacter (present in the
token language so that escaping is semantically meaningful). -/
inductive RTok where
  | boundary : RTok
  | lit : Char → RTok
  | anyChar : RTok
deriving DecidableEq, Repr

/-- Translate pattern text to tokens: `\b` is the boundary assertion, any
other backslash-escaped character is a literal, a bare `.` matches any
character, and every other bare character is a literal. -/
def compileTokens : Str → List RTok
  | [] => []
  | c :: rest =>
    if c = '\\' then
      match rest with
      | [] => []
      | d :: rest2 => (if d = 'b' then RTok.boundary else RTok.lit d) :: compileTokens rest2
    else if c = '.' then RTok.anyChar :: compileTokens rest
    else RTok.lit c :: compileTokens rest

/-- Match the token list against `s` starting at position `i`, with word
boundaries judged by the classifier `w` (`boundary` consumes nothing;
`lit`/`anyChar` consume one character; `.` does not match a newline, as in
Python without `re.DOTALL`). -/
def matchToksAtW (w : Char → Bool) : List RTok → Str → Nat → Bool
  | [], _, _ => true
  | RTok.boundary :: ts, s, i => wordBoundaryW w s i && matchToksAtW w ts s i
  | RTok.lit c :: ts, s, i =>
    match s.drop i with
    | [] => false
    | d :: _ => d = c && matchToksAtW w ts s (i + 1)
  | RTok.anyChar :: ts, s, i =>
    match s.drop i with
    | [] => false
    | d :: _ => d ≠ '\n' && matchToksAtW w ts s (i + 1)

/-- Python `pattern.search(line)`: try every start position. -/
def reSearchW (w : Char → Bool) (ts : List RTok) (s : Str) : Bool :=
  (List.range (s.length + 1)).any (fun i => matchToksAtW w ts s i)

/-- The Line Matcher with word-character classifier `w`:
`re.compile(rf'\b{re.escape(keyword)}\b').search(line)`
(`search.py:129` / `search.py:148`).  Note the compilation passes no
`re.IGNORECASE` flag, so matching is case-sensitive. -/
def lineHitW (w : Char → Bool) (kw : Str) (line : Str) : Bool :=
  reSearchW w (compileTokens (patternText kw)) line

/-- The executable Line Matcher used by the scanner: the classifier is the
ASCII fragment of `\w`, exact on ASCII keywords and lines. -/
def lineHit (kw : Str) (line : Str) : Bool :=
  lineHitW isWordChar kw line

/-- The keyword occurs literally at position `i` of `s`. -/
def occursAt (kw s : Str) (i : Nat) : Prop :=
  i + kw.length ≤ s.length ∧ (s.drop i).take kw.length = kw

/-! ## The Tree Scanner and Aggregator (`search_files`, `search.py:120-196`) -/

/-- A directory: named files (with their decoded lines, newlines already
split off) and named subdirectories. -/
inductive FSTree where
  | node : List (Str × List Str) → List (Str × FSTree) → FSTree

mutual

/-- `os.walk` flattened to the scan order of `search.py:134-137`: the files of
a directory first (top-down), then each subdirectory in order.  `pre` is the
accumulated relative-path prefix, so the pair's first component is exactly
`os.path.relpath(os.path.join(root, file), base_dir)`. -/
def walkTree (pre : Str) : FSTree → List (Str × List Str)
  | .node files subs =>
    files.map (fun p => (pre ++ p.1, p.2)) ++ walkSubs pre subs

/-- Walk each subdirectory in order, extending the relative prefix with the
directory name and a `/` separator. -/
def walkSubs (pre : Str) : List (Str × FSTree) → List (Str × List Str)
  | [] => []
  | (d, t) :: rest => walkTree (pre ++ d ++ ['/']) t ++ walkSubs pre rest

end

/-- `os.walk(base_dir)` as invoked at `search.py:134`.  A base directory that
does not exist (or is not traversable) is `none`: Python's `os.walk` with the
default `onerror=None` silently swallows the `scandir` error on the root and
yields no triples at all, so the scan sees an empty file list. -/
def osWalkFiles : Option FSTree → List (Str × List Str)
  | none => []
  | some t => walkTree [] t

/-- The characters Python `str.strip()` removes, restricted to ASCII:
space, tab, newline, carriage return, vertical tab and form feed
(`str.isspace()` additionally covers non-ASCII Unicode spaces, which do not
occur in any evaluated input). -/
def pyIsSpace (c : Char) : Bool :=
  c.isWhitespace || c = '\x0b' || c = '\x0c'

/-- Python `str.strip()`: drop leading and trailing whitespace
(`search.py:153`). -/
def pyStrip (s : Str) : Str :=
  ((s.dropWhile pyIsSpace).reverse.dropWhile pyIsSpace).reverse

/-- The context slice `lines[max(i - 2, 0):min(i + 3, len(lines))]` of
`search.py:156-158` (on `Nat`, `i - 2` is exactly `max(i - 2, 0)`); the code
joins this slice and strips it for display, which does not change how many
lines it holds. -/
def contextWindow (lines : List Str) (i : Nat) : List Str :=
  (lines.drop (i - 2)).take (min (i + 3) lines.length - (i - 2))

/-- One detail record appended to `excel_data` at `search.py:161`:
`[keyword, relative_file_path, i + 1, hit_line, full_context]`. -/
structure MatchRec where
  kw : Str
  file : Str
  lineNo : Nat
  hitLine : Str
  ctx : List Str
deriving DecidableEq, Repr, Inhabited

/-- The per-keyword aggregate of `search.py:131`:
`{'hit_count': 0, 'file_count': 0, 'files': {}}`; `files` is the
insertion-ordered dict from relative path to the per-file description list. -/
structure Summary where
  hit_count : Nat
  file_count : Nat
  files : List (Str × List Str)
deriving DecidableEq, Repr

def Summary.init : Summary := ⟨0, 0, []⟩

/-- Pointwise update of a keyword-indexed table (a Python dict read through
its lookup function; the scan only ever reads keys of the keyword list). -/
def updFun (f : Str → α) (k : Str) (v : α) : Str → α :=
  fun x => if x = k then v else f x

/-- Insertion-ordered dict assignment `d[k] = v` for the dicts whose ordering
matters (`results[kw]['files']`): replace the key in place or append it. -/
def aupd : List (Str × α) → Str → α → List (Str × α)
  | [], k, v => [(k, v)]
  | (k', v') :: rest, k, v =>
    if k' = k then (k, v) :: rest else (k', v') :: aupd rest k v

/-- Insertion-ordered dict lookup. -/
def alookup : List (Str × α) → Str → Option α
  | [], _ => none
  | (k', v') :: rest, k => if k = k' then some v' else alookup rest k

/-- The accumulator of `search_files`: `results` (read through its lookup
function) and the flat `excel_data` list. -/
structure SState where
  res : Str → Summary
  excel : List MatchRec

/-- The scan state while inside one file: the global state plus `file_hits`
and `file_results` (`search.py:143-144`), both initialised to zero/empty for
every keyword. -/
structure FileState where
  st : SState
  file_hits : Str → Nat
  file_results : Str → List Str

/-- The description string `f"{relative_file_path} (Line {i+1}): {hit_line}"`
of `search.py:160`. -/
def hitDesc (relPath : Str) (i : Nat) (hitLine : Str) : Str :=
  relPath ++ " (Line ".data ++ (toString (i + 1)).data ++ "): ".data ++ hitLine

/-- The body of the keyword loop at `search.py:147-161`: on a hit, bump the
keyword's running hit count and its file-local hit count, record the
description, and append the detail record. -/
def kwLineStep (relPath : Str) (lines : List Str) (i : Nat) (line : Str)
    (fs : FileState) (kw : Str) : FileState :=
  if lineHit kw line then
    let s := fs.st.res kw
    { st :=
        { res := updFun fs.st.res kw { s with hit_count := s.hit_count + 1 },
          excel := fs.st.excel
            ++ [⟨kw, relPath, i + 1, pyStrip line, contextWindow lines i⟩] },
      file_hits := updFun fs.file_hits kw (fs.file_hits kw + 1),
      file_results := updFun fs.file_results kw
        (fs.file_results kw ++ [hitDesc relPath i (pyStrip line)]) }
  else fs

/-- The line loop `for i, line in enumerate(lines)` at `search.py:146`,
running the keyword loop on every (0-based) numbered line. -/
def procLines (relPath : Str) (lines : List Str) (kws : List Str)
    (fs : FileState) : FileState :=
  lines.enum.foldl
    (fun acc p => kws.foldl (kwLineStep relPath lines p.1 p.2) acc) fs

/-- One step of the post-file loop at `search.py:163-167`: for a keyword
occurrence with a positive file-local hit count, bump `file_count` and
register the file's description list. -/
def regStep (relPath : Str) (fh : Str → Nat) (fr : Str → List Str)
    (st : SState) (kw : Str) : SState :=
  if 0 < fh kw then
    let s := st.res kw
    let s2 := { s with file_count := s.file_count + 1,
                       files := aupd s.files relPath (fr kw) }
    { st with res := updFun st.res kw s2 }
  else st

/-- The post-file loop at `search.py:163-167`. -/
def registerFile (relPath : Str) (kws : List Str) (fs : FileState) : SState :=
  kws.foldl (regStep relPath fs.file_hits fs.file_results) fs.st

/-- Process one walked file (`search.py:139-167`). -/
def procFile (kws : List Str) (st : SState) (pf : Str × List Str) : SState :=
  registerFile pf.1 kws (procLines pf.1 pf.2 kws ⟨st, fun _ => 0, fun _ => []⟩)

/-- The core of `search_files` (`search.py:129-167`): initialise the
per-keyword summaries and fold the per-file processing over the walked
files.  `base` is `none` when the base directory does not exist. -/
def searchFiles (kws : List Str) (base : Option FSTree) : SState :=
  (osWalkFiles base).foldl (procFile kws) ⟨fun _ => Summary.init, []⟩

/-- One per-file block of the summary text (`search.py:180-183`). -/
def outFileBlock (a : List Str) (p : Str × List Str) : List Str :=
  (a ++ ["  ".data ++ p.1 ++ ":".data])
    ++ p.2.map (fun d => "    ".data ++ d) ++ [[]]

/-- One per-keyword block of the summary text (`search.py:175-183`). -/
def outBlock (st : SState) (acc : List Str) (kw : Str) : List Str :=
  let s := st.res kw
  (s.files).foldl outFileBlock
    (acc
      ++ ["検索ワード: '".data ++ kw ++ "'".data,
          "  ヒット総数: ".data ++ (toString s.hit_count).data,
          "  該当ファイル数: ".data ++ (toString s.file_count).data,
          []])

/-- The summary text built at `search.py:172-183` (one block per keyword
occurrence in original list order, then the per-file description lists). -/
def outputLines (kws : List Str) (st : SState) : List Str :=
  kws.foldl (outBlock st) []

/-! ## Closed forms of the aggregation counters -/

/-- Number of lines of a file hit by a keyword (the match test is per line:
one count per matching line, however many occurrences it holds). -/
def lineCount (kw : Str) (lines : List Str) : Nat :=
  lines.countP (fun l => lineHit kw l)

/-- Total matching lines of a keyword over a walked file list. -/
def walkHitTotal (kw : Str) (files : List (Str × List Str)) : Nat :=
  (files.map (fun p => lineCount kw p.2)).sum

/-- Number of walked files with at least one matching line for a keyword. -/
def walkFileTotal (kw : Str) (files : List (Str × List Str)) : Nat :=
  files.countP (fun p => decide (0 < lineCount kw p.2))

/-- The records one numbered line contributes to `excel_data`: one per
occurrence of a matching keyword, in keyword-list order. -/
def lineRecs (kws : List Str) (rp : Str) (lines : List Str)
    (p : Nat × Str) : List MatchRec :=
  (kws.filter (fun w => lineHit w p.2)).map
    (fun w => ⟨w, rp, p.1 + 1, pyStrip p.2, contextWindow lines p.1⟩)

/-- The records one file contributes to `excel_data`, in line order. -/
def fileRecords (kws : List Str) (rp : Str) (lines : List Str) :
    List MatchRec :=
  lines.enum.flatMap (lineRecs kws rp lines)

/-- A base directory containing no direct file children, only a subdirectory
`sub` holding `a.txt` whose single line is `foo`. -/
def nestedTree : FSTree :=
  .node [] [("sub".data, .node [("a.txt".data, ["foo".data])] [])]

/-- The three-line file of the spec's own Scenario A. -/
def linesA : List Str := ["foo".data, "bar foo".data, "baz".data]

/-- The distinct files contributing at least one detail record for a
keyword, read off the record list itself. -/
def contribFiles (st : SState) (k : Str) : List Str :=
  ((st.excel.filter (fun r => r.kw == k)).map (fun r => r.file)).dedup

/-- A single file whose single line matches keyword `a`. -/
def dupTree : FSTree := .node [("f.txt".data, ["a".data])] []

/-! ## The Report Renderer (`save_results_to_excel`, `search.py:198-408`) -/

/-- Python string comparison: lexicographic on code points. -/
def strLe : Str → Str → Bool
  | [], _ => true
  | _ :: _, [] => false
  | a :: as, b :: bs => if a = b then strLe as bs else decide (a < b)

/-- The sort key comparison of `search.py:257`,
`key=lambda x: (x[1], x[0])`: by file path, then by keyword, both
ascending. -/
def recLe (r s : MatchRec) : Bool :=
  if r.file = s.file then strLe r.kw s.kw else strLe r.file s.file

/-- `sorted(excel_data, key=lambda x: (x[1], x[0]))` (`search.py:257`).
Python's `sorted` is a stable sort; any stable sort agrees with any other on
the same key preorder, so it is embedded as a stable merge sort. -/
def sortRecords (data : List MatchRec) : List MatchRec :=
  data.mergeSort recLe

/-- A top-border weight in the detail sheet. -/
inductive BStyle where
  | thin : BStyle
  | medium : BStyle
deriving DecidableEq, Repr

/-- The top-border pass of `search.py:295-313` threaded over the sorted
records: `border_type` defaults to `"thin"`; it becomes `"medium"` when
`current_file is not None and file_path != current_file`; the `elif` branch
(keyword change within the same file) re-assigns `"thin"`.  After each row
`current_file`/`current_keyword` are set to the row's values
(`search.py:360-361`). -/
def borderSeq : Option Str → Option Str → List MatchRec → List BStyle
  | _, _, [] => []
  | curF, curK, r :: rest =>
    (if curF ≠ none ∧ curF ≠ some r.file then BStyle.medium
     else if curK ≠ none ∧ curK ≠ some r.kw ∧ curF = some r.file then BStyle.thin
     else BStyle.thin)
      :: borderSeq (some r.file) (some r.kw) rest

/-- The top borders assigned to the rows of the detail sheet, in order: the
border pass runs over the sorted record list with both trackers starting at
`None` (`search.py:295-296`). -/
def topBorderStyles (data : List MatchRec) : List BStyle :=
  borderSeq none none (sortRecords data)

/-- A record in file `a.txt`. -/
def exRecA : MatchRec := ⟨"k".data, "a.txt".data, 1, "k x".data, ["k x".data]⟩

/-- A record in file `b.txt`. -/
def exRecB : MatchRec := ⟨"k".data, "b.txt".data, 1, "k y".data, ["k y".data]⟩

/-- The four banding colors of `search.py:265-268`. -/
def color_a1 : String := "BBDEFB"

def color_a2 : String := "E3F2FD"

def color_b1 : String := "FFCC80"

def color_b2 : String := "FFF3E0"

/-- `color_a1 if file_toggle else color_a2` (`search.py:282`). -/
def fColor (t : Bool) : String := if t then color_a1 else color_a2

/-- `color_b1 if current_keyword_toggle else color_b2` (`search.py:289`). -/
def kColor (t : Bool) : String := if t then color_b1 else color_b2

/-- The state of the color-assignment pass of `search.py:259-289`:
`file_colors`, `keyword_colors`, `current_file`, `file_toggle` and
`current_keyword_toggle` (the last is only read after a file branch has
initialised it; its initial value is immaterial and modelled as `false`). -/
structure ColorState where
  file_colors : List (Str × String)
  kw_colors : List (Str × List (Str × String))
  cur_file : Option Str
  file_toggle : Bool
  kw_toggle : Bool

/-- The keyword half of the loop body (`search.py:286-289`): if this file's
keyword dict has no entry for the keyword, flip the keyword toggle and
assign the keyword color.  (A missing file entry would be a `KeyError` in
Python; it is unreachable because the file branch always initialises the
entry, and is modelled as a no-op.) -/
def colorStepKw (s1 : ColorState) (r : MatchRec) : ColorState :=
  match alookup s1.kw_colors r.file with
  | none => s1
  | some m =>
    match alookup m r.kw with
    | some _ => s1
    | none =>
      { s1 with
        kw_toggle := !s1.kw_toggle,
        kw_colors := aupd s1.kw_colors r.file
          (aupd m r.kw (kColor (!s1.kw_toggle))) }

/-- One iteration of the color-assignment loop (`search.py:274-289`): on a
file change, flip the file toggle, assign the file color and reset the
keyword dict and toggle; then run the keyword half. -/
def colorStep (s : ColorState) (r : MatchRec) : ColorState :=
  colorStepKw
    (if some r.file ≠ s.cur_file then
      { file_colors := aupd s.file_colors r.file (fColor (!s.file_toggle)),
        kw_colors := aupd s.kw_colors r.file [],
        cur_file := some r.file,
        file_toggle := !s.file_toggle,
        kw_toggle := false }
     else s) r

/-- The full first pass of `save_results_to_excel` over the sorted data. -/
def assignColors (l : List MatchRec) (s : ColorState) : ColorState :=
  l.foldl colorStep s

/-- `file_colors = {}`, `keyword_colors = {}`, `current_file = None`,
`file_toggle = False` (`search.py:261-272`). -/
def initColorState : ColorState := ⟨[], [], none, false, false⟩

/-- The color maps the renderer looks fills up in
(`search.py:369-382`): computed once from the sorted record list. -/
def renderPlan (data : List MatchRec) : ColorState :=
  assignColors (sortRecords data) initColorState

/-- The file-band color a record's file cell receives (`search.py:371`). -/
def fileColorOf (cs : ColorState) (r : MatchRec) : Option String :=
  alookup cs.file_colors r.file

/-- The keyword-band color a record's keyword cell receives
(`search.py:378`). -/
def kwColorOf (cs : ColorState) (r : MatchRec) : Option String :=
  (alookup cs.kw_colors r.file).bind (fun m => alookup m r.kw)

/-- Equal elements are contiguous: once the head value is left behind it
never reappears.  This is the shape of the file column of a list sorted by
file. -/
def Contig : List Str → Prop
  | [] => True
  | f :: fs => Contig fs ∧ (f ∈ fs → fs.head? = some f)

theorem compileTokens_backslash (c : Char) (rest : Str) :
    compileTokens ('\\' :: c :: rest)
      = (if c = 'b' then RTok.boundary else RTok.lit c) :: compileTokens rest := by
  rw [compileTokens.eq_def]
  simp

theorem compileTokens_plain {c : Char} (rest : Str)
    (h1 : c ≠ '\\') (h2 : c ≠ '.') :
    compileTokens (c :: rest) = RTok.lit c :: compileTokens rest := by
  rw [compileTokens.eq_def]
  simp [h1, h2]

/-- Compiling the escaped keyword followed by the trailing `\b` yields the
keyword's characters as literal tokens followed by the boundary token: the
escaping makes every metacharacter of the keyword a literal. -/
theorem compileTokens_escape (kw : Str) :
    compileTokens (re_escape kw ++ ['\\', 'b'])
      = kw.map RTok.lit ++ [RTok.boundary] := by
  induction kw with
  | nil => simp [re_escape, compileTokens]
  | cons c cs ih =>
    by_cases hs : c ∈ reSpecialChars
    · have hb : c ≠ 'b' := by
        intro h; subst h; revert hs; decide
      simp only [re_escape, if_pos hs, List.cons_append, compileTokens_backslash,
        if_neg hb, List.map_cons]
      rw [ih]
    · have h1 : c ≠ '\\' := by
        intro h; subst h; exact hs (by decide)
      have h2 : c ≠ '.' := by
        intro h; subst h; exact hs (by decide)
      simp only [re_escape, if_neg hs, List.cons_append, compileTokens_plain _ h1 h2,
        List.map_cons]
      rw [ih]

/-- The tokens compiled from `patternText kw` are: boundary, the keyword's
characters as literals, boundary. -/
theorem compileTokens_patternText (kw : Str) :
    compileTokens (patternText kw)
      = RTok.boundary :: (kw.map RTok.lit ++ [RTok.boundary]) := by
  show compileTokens (('\\' :: 'b' :: re_escape kw) ++ ['\\', 'b'])
      = RTok.boundary :: (kw.map RTok.lit ++ [RTok.boundary])
  rw [List.cons_append, List.cons_append, compileTokens_backslash, if_pos rfl,
    compileTokens_escape]

/-- Matching a run of literal tokens followed by `ts` from position `i`
succeeds iff the literals occur verbatim at `i` (within bounds) and `ts`
matches right after them. -/
theorem matchToksAt_lits (w : Char → Bool) (kw : Str) (ts : List RTok)
    (s : Str) (i : Nat) :
    matchToksAtW w (kw.map RTok.lit ++ ts) s i = true
      ↔ (kw.length ≤ s.length - i ∧ (s.drop i).take kw.length = kw)
        ∧ matchToksAtW w ts s (i + kw.length) = true := by
  induction kw generalizing i with
  | nil => simp
  | cons c cs ih =>
    simp only [List.map_cons, List.cons_append, matchToksAtW]
    cases hdi : s.drop i with
    | nil =>
      have hlen : s.length ≤ i := by
        have := congrArg List.length hdi
        simp [List.length_drop] at this
        omega
      simp only [Bool.false_eq_true, false_iff]
      intro ⟨⟨hle, _⟩, _⟩
      simp [List.length_cons] at hle
      omega
    | cons d rest =>
      have hrest : s.drop (i + 1) = rest := by
        have h := List.tail_drop s i
        rw [hdi] at h
        simpa using h.symm
      have hlt : i < s.length := by
        have h := congrArg List.length hdi
        simp [List.length_drop] at h
        omega
      have hidx : i + (c :: cs).length = i + 1 + cs.length := by
        simp only [List.length_cons]
        omega
      simp only [List.append_eq]
      rw [Bool.and_eq_true, decide_eq_true_eq, ih (i + 1), hrest, hidx]
      constructor
      · rintro ⟨hdc, ⟨hle, htk⟩, hts⟩
        subst hdc
        refine ⟨⟨?_, ?_⟩, hts⟩
        · simp only [List.length_cons]
          omega
        · simp [htk]
      · rintro ⟨⟨hle, htk⟩, hts⟩
        simp only [List.length_cons, List.take_succ_cons, List.cons.injEq] at htk
        refine ⟨htk.1, ⟨?_, htk.2⟩, hts⟩
        simp only [List.length_cons] at hle
        omega

/-- `search.py:129` + `search.py:148`, the semantics of the Line Matcher:
the compiled pattern finds the keyword iff it occurs verbatim (every
metacharacter of the keyword taken literally) at some position that is
word-boundary delimited on both sides — a whole-word occurrence, never a
mere substring. -/
theorem lineHit_iff (w : Char → Bool) (kw line : Str) :
    lineHitW w kw line = true
      ↔ ∃ i, occursAt kw line i
          ∧ wordBoundaryW w line i = true
          ∧ wordBoundaryW w line (i + kw.length) = true := by
  unfold lineHitW reSearchW
  rw [List.any_eq_true]
  constructor
  · rintro ⟨i, hmem, hm⟩
    rw [List.mem_range] at hmem
    rw [compileTokens_patternText] at hm
    have hm' : matchToksAtW w (RTok.boundary :: (kw.map RTok.lit ++ [RTok.boundary])) line i
        = true := hm
    rw [show matchToksAtW w (RTok.boundary :: (kw.map RTok.lit ++ [RTok.boundary])) line i
          = (wordBoundaryW w line i && matchToksAtW w (kw.map RTok.lit ++ [RTok.boundary]) line i)
        from rfl, Bool.and_eq_true] at hm'
    obtain ⟨hb1, hlits⟩ := hm'
    rw [matchToksAt_lits] at hlits
    obtain ⟨⟨hle, htk⟩, hb2⟩ := hlits
    have hb2' : wordBoundaryW w line (i + kw.length) = true := by
      have : matchToksAtW w [RTok.boundary] line (i + kw.length)
          = (wordBoundaryW w line (i + kw.length) && true) := rfl
      rw [this, Bool.and_true] at hb2
      exact hb2
    exact ⟨i, ⟨by omega, htk⟩, hb1, hb2'⟩
  · rintro ⟨i, ⟨hle, htk⟩, hb1, hb2⟩
    refine ⟨i, by rw [List.mem_range]; omega, ?_⟩
    rw [compileTokens_patternText]
    show (wordBoundaryW w line i && matchToksAtW w (kw.map RTok.lit ++ [RTok.boundary]) line i) = true
    rw [Bool.and_eq_true]
    refine ⟨hb1, ?_⟩
    rw [matchToksAt_lits]
    refine ⟨⟨by omega, htk⟩, ?_⟩
    show (wordBoundaryW w line (i + kw.length) && true) = true
    rw [Bool.and_true]
    exact hb2

theorem length_le_outFileBlock (a : List Str) (p : Str × List Str) :
    a.length ≤ (outFileBlock a p).length := by
  simp [outFileBlock]

theorem length_le_foldl_outFileBlock :
    ∀ (fs : List (Str × List Str)) (a : List Str),
      a.length ≤ (fs.foldl outFileBlock a).length := by
  intro fs
  induction fs with
  | nil => intro a; simp
  | cons p rest ih =>
    intro a
    exact le_trans (length_le_outFileBlock a p) (ih (outFileBlock a p))

theorem length_le_outBlock (st : SState) (acc : List Str) (kw : Str) :
    acc.length + 4 ≤ (outBlock st acc kw).length := by
  unfold outBlock
  refine le_trans ?_ (length_le_foldl_outFileBlock _ _)
  simp

theorem length_le_foldl_outBlock (st : SState) :
    ∀ (kws : List Str) (acc : List Str),
      acc.length ≤ (kws.foldl (outBlock st) acc).length := by
  intro kws
  induction kws with
  | nil => intro acc; simp
  | cons k rest ih =>
    intro acc
    refine le_trans ?_ (ih (outBlock st acc k))
    have h := length_le_outBlock st acc k
    omega

/-- With at least one keyword, the summary text is never empty. -/
theorem outputLines_ne_nil (kws : List Str) (st : SState) (h : kws ≠ []) :
    outputLines kws st ≠ [] := by
  match kws, h with
  | k :: rest, _ =>
    have h1 := length_le_outBlock st [] k
    have h2 := length_le_foldl_outBlock st rest (outBlock st [] k)
    have h3 : 0 < (outputLines (k :: rest) st).length := by
      simp only [outputLines, List.foldl_cons]
      omega
    exact List.ne_nil_of_length_pos h3

theorem kwfold_hit (rp : Str) (lines : List Str) (i : Nat) (line : Str)
    (k : Str) :
    ∀ (kws : List Str) (fs : FileState),
      (((kws.foldl (kwLineStep rp lines i line) fs)).st.res k).hit_count
        = ((fs.st.res k)).hit_count
            + kws.count k * (if lineHit k line then 1 else 0) := by
  intro kws
  induction kws with
  | nil => intro fs; simp
  | cons w rest ih =>
    intro fs
    simp only [List.foldl_cons]
    rw [ih, List.count_cons]
    unfold kwLineStep
    by_cases hw : lineHit w line
    · by_cases hkw : k = w
      · subst hkw
        simp [updFun, hw]
        omega
      · simp [updFun, hw, hkw, Ne.symm hkw]
    · by_cases hkw : k = w
      · subst hkw
        simp [updFun, hw]
      · simp [updFun, hw, hkw, Ne.symm hkw]

theorem kwfold_file_hits (rp : Str) (lines : List Str) (i : Nat) (line : Str)
    (k : Str) :
    ∀ (kws : List Str) (fs : FileState),
      ((kws.foldl (kwLineStep rp lines i line) fs)).file_hits k
        = fs.file_hits k + kws.count k * (if lineHit k line then 1 else 0) := by
  intro kws
  induction kws with
  | nil => intro fs; simp
  | cons w rest ih =>
    intro fs
    simp only [List.foldl_cons]
    rw [ih, List.count_cons]
    unfold kwLineStep
    by_cases hw : lineHit w line
    · by_cases hkw : k = w
      · subst hkw
        simp [updFun, hw]
        omega
      · simp [updFun, hw, hkw, Ne.symm hkw]
    · by_cases hkw : k = w
      · subst hkw
        simp [updFun, hw]
      · simp [updFun, hw, hkw, Ne.symm hkw]

theorem kwfold_file_count (rp : Str) (lines : List Str) (i : Nat) (line : Str)
    (k : Str) :
    ∀ (kws : List Str) (fs : FileState),
      (((kws.foldl (kwLineStep rp lines i line) fs)).st.res k).file_count
        = ((fs.st.res k)).file_count := by
  intro kws
  induction kws with
  | nil => intro fs; simp
  | cons w rest ih =>
    intro fs
    simp only [List.foldl_cons]
    rw [ih]
    unfold kwLineStep
    by_cases hw : lineHit w line
    · by_cases hkw : k = w
      · subst hkw
        simp [updFun, hw]
      · simp [updFun, hw, hkw]
    · simp [hw]

theorem kwfold_files (rp : Str) (lines : List Str) (i : Nat) (line : Str)
    (k : Str) :
    ∀ (kws : List Str) (fs : FileState),
      (((kws.foldl (kwLineStep rp lines i line) fs)).st.res k).files
        = ((fs.st.res k)).files := by
  intro kws
  induction kws with
  | nil => intro fs; simp
  | cons w rest ih =>
    intro fs
    simp only [List.foldl_cons]
    rw [ih]
    unfold kwLineStep
    by_cases hw : lineHit w line
    · by_cases hkw : k = w
      · subst hkw
        simp [updFun, hw]
      · simp [updFun, hw, hkw]
    · simp [hw]

theorem kwfold_excel (rp : Str) (lines : List Str) (i : Nat) (line : Str) :
    ∀ (kws : List Str) (fs : FileState),
      ((kws.foldl (kwLineStep rp lines i line) fs)).st.excel
        = fs.st.excel
            ++ (kws.filter (fun w => lineHit w line)).map
                (fun w => ⟨w, rp, i + 1, pyStrip line, contextWindow lines i⟩) := by
  intro kws
  induction kws with
  | nil => intro fs; simp
  | cons w rest ih =>
    intro fs
    simp only [List.foldl_cons]
    rw [ih]
    unfold kwLineStep
    by_cases hw : lineHit w line
    · simp [hw, List.filter_cons, List.append_assoc]
    · simp [hw, List.filter_cons]

/-- C1: the claim says a keyword test against a line is case-insensitive when
the case-sensitive flag is off (the default).  The code's own help text
(`search.py:21,28`) documents this, and `main` even computes
`ignore_case = not args.case_sensitive` (`search.py:96`), but the pattern is
compiled at `search.py:129` with no `re.IGNORECASE` flag and `search_files`
takes no case-sensitivity parameter at all, so the Line Matcher is always
case-sensitive: `"FOO bar"` is not a hit for keyword `"foo"`. -/
theorem C1_line_matcher_case_sensitive :
    lineHit "foo".data "FOO bar".data = false
      ∧ lineHit "foo".data "foo bar".data = true := by
  decide

/-- C2: the claim says that with the recursion flag false only direct
children of the base directory are enumerated.  `search_files` has no
recursion parameter at all and calls `os.walk` unconditionally
(`search.py:134`), although the CLI documents `-r` (`--no-recursive`)
(`search.py:27`) and `main` computes the flag (`search.py:95`) without using
it: a file living only in a subdirectory is always scanned and produces
hits. -/
theorem C2_walk_always_recursive :
    (osWalkFiles (some nestedTree)).map Prod.fst = ["sub/a.txt".data]
      ∧ (searchFiles ["foo".data] (some nestedTree)).res "foo".data
          = ⟨1, 1, [("sub/a.txt".data, ["sub/a.txt (Line 1): foo".data])]⟩ := by
  decide

/-- C3 counterexample: on a nonexistent base directory the run does NOT
abort: `os.walk` (default `onerror=None`) yields nothing, so `search_files`
returns empty zero-count results and still produces its complete summary
output — exactly the "returning empty results" the claim rules out. -/
theorem C3_counterexample :
    (searchFiles ["a".data] none).excel = []
      ∧ (searchFiles ["a".data] none).res "a".data = Summary.init
      ∧ outputLines ["a".data] (searchFiles ["a".data] none)
          = ["検索ワード: 'a'".data, "  ヒット総数: 0".data,
             "  該当ファイル数: 0".data, []] := by
  decide

/-- C3 (amended): a base directory that does not exist or is not traversable
is silently treated as empty: the run completes normally with an empty
record list and all-zero summaries, and the summary output is still
produced. -/
theorem C3_amended_missing_dir_yields_empty_results (kws : List Str) (k : Str)
    (h : kws ≠ []) :
    (searchFiles kws none).excel = []
      ∧ (searchFiles kws none).res k = Summary.init
      ∧ outputLines kws (searchFiles kws none) ≠ [] := by
  refine ⟨rfl, rfl, ?_⟩
  exact outputLines_ne_nil kws _ h

/-- Witness for `C3_amended_missing_dir_yields_empty_results` at the
one-keyword list `["a"]`. -/
theorem C3_amended_missing_dir_yields_empty_results_witness :
    (["a".data] : List Str) ≠ []
      ∧ ((searchFiles ["a".data] none).excel = []
          ∧ (searchFiles ["a".data] none).res "b".data = Summary.init
          ∧ outputLines ["a".data] (searchFiles ["a".data] none) ≠ []) :=
  ⟨by decide, C3_amended_missing_dir_yields_empty_results ["a".data] "b".data (by decide)⟩

/-- C4 counterexample: for the hit at (0-based) line 0 of Scenario A's
three-line file, the context window is lines[0:3] — 3 lines — while the
claim's formula `min(i+2, total_lines) - max(i-2, 0)` gives 2. -/
theorem C4_counterexample :
    lineHit "foo".data (linesA.getD 0 []) = true
      ∧ (contextWindow linesA 0).length = 3
      ∧ ((contextWindow linesA 0).length : Int)
          ≠ min ((0 : Int) + 2) (linesA.length : Int) - max ((0 : Int) - 2) 0 := by
  decide

/-- C4 (amended): the context slice `lines[max(i-2,0):min(i+3,len(lines))]`
(`search.py:156-158`) has length `min(i+3, total_lines) - max(i-2, 0)` — the
hit line plus up to 2 lines before and up to 2 after, clipped at the file
ends — and its construction stays inside `[0, total_lines)`: the last index
it reads is `max(i-2,0) + length - 1 < total_lines`. -/
theorem C4_amended_context_window (lines : List Str) (i : Nat)
    (h : i < lines.length) :
    ((contextWindow lines i).length : Int)
        = min ((i : Int) + 3) (lines.length : Int) - max ((i : Int) - 2) 0
      ∧ (i - 2) + (contextWindow lines i).length ≤ lines.length := by
  constructor
  · simp only [contextWindow, List.length_take, List.length_drop]
    omega
  · simp only [contextWindow, List.length_take, List.length_drop]
    omega

/-- Witness for `C4_amended_context_window` at Scenario A's file, hit line
1 (0-based). -/
theorem C4_amended_context_window_witness :
    1 < linesA.length
      ∧ (((contextWindow linesA 1).length : Int)
            = min ((1 : Int) + 3) (linesA.length : Int) - max ((1 : Int) - 2) 0
          ∧ (1 - 2) + (contextWindow linesA 1).length ≤ linesA.length) :=
  ⟨by decide, C4_amended_context_window linesA 1 (by decide)⟩

theorem linesfold_hit (rp : Str) (lines : List Str) (kws : List Str) (k : Str) :
    ∀ (ps : List (Nat × Str)) (fs : FileState),
      ((ps.foldl (fun acc p => kws.foldl (kwLineStep rp lines p.1 p.2) acc) fs).st.res k).hit_count
        = ((fs.st.res k)).hit_count
            + kws.count k * ps.countP (fun p => lineHit k p.2) := by
  intro ps
  induction ps with
  | nil => intro fs; simp
  | cons p rest ih =>
    intro fs
    simp only [List.foldl_cons]
    rw [ih, kwfold_hit, List.countP_cons]
    by_cases hp : lineHit k p.2
    · simp [hp]
      ring
    · simp [hp]

theorem linesfold_file_hits (rp : Str) (lines : List Str) (kws : List Str) (k : Str) :
    ∀ (ps : List (Nat × Str)) (fs : FileState),
      ((ps.foldl (fun acc p => kws.foldl (kwLineStep rp lines p.1 p.2) acc) fs)).file_hits k
        = fs.file_hits k + kws.count k * ps.countP (fun p => lineHit k p.2) := by
  intro ps
  induction ps with
  | nil => intro fs; simp
  | cons p rest ih =>
    intro fs
    simp only [List.foldl_cons]
    rw [ih, kwfold_file_hits, List.countP_cons]
    by_cases hp : lineHit k p.2
    · simp [hp]
      ring
    · simp [hp]

theorem linesfold_file_count (rp : Str) (lines : List Str) (kws : List Str) (k : Str) :
    ∀ (ps : List (Nat × Str)) (fs : FileState),
      ((ps.foldl (fun acc p => kws.foldl (kwLineStep rp lines p.1 p.2) acc) fs).st.res k).file_count
        = ((fs.st.res k)).file_count := by
  intro ps
  induction ps with
  | nil => intro fs; simp
  | cons p rest ih =>
    intro fs
    simp only [List.foldl_cons]
    rw [ih, kwfold_file_count]

theorem linesfold_excel (rp : Str) (lines : List Str) (kws : List Str) :
    ∀ (ps : List (Nat × Str)) (fs : FileState),
      ((ps.foldl (fun acc p => kws.foldl (kwLineStep rp lines p.1 p.2) acc) fs)).st.excel
        = fs.st.excel ++ ps.flatMap (lineRecs kws rp lines) := by
  intro ps
  induction ps with
  | nil => intro fs; simp
  | cons p rest ih =>
    intro fs
    simp only [List.foldl_cons]
    rw [ih, kwfold_excel]
    simp [lineRecs, List.append_assoc]

theorem regfold_hit (rp : Str) (k : Str) (fh : Str → Nat) (fr : Str → List Str) :
    ∀ (kws : List Str) (st : SState),
      ((kws.foldl (regStep rp fh fr) st).res k).hit_count = (st.res k).hit_count := by
  intro kws
  induction kws with
  | nil => intro st; simp
  | cons w rest ih =>
    intro st
    simp only [List.foldl_cons]
    rw [ih]
    unfold regStep
    by_cases hw : 0 < fh w
    · by_cases hkw : k = w
      · subst hkw
        simp [updFun, hw]
      · simp [updFun, hw, hkw]
    · simp [hw]

theorem regfold_file_count (rp : Str) (k : Str) (fh : Str → Nat) (fr : Str → List Str) :
    ∀ (kws : List Str) (st : SState),
      ((kws.foldl (regStep rp fh fr) st).res k).file_count
        = (st.res k).file_count + kws.count k * (if 0 < fh k then 1 else 0) := by
  intro kws
  induction kws with
  | nil => intro st; simp
  | cons w rest ih =>
    intro st
    simp only [List.foldl_cons]
    rw [ih, List.count_cons]
    unfold regStep
    by_cases hw : 0 < fh w
    · by_cases hkw : k = w
      · subst hkw
        simp [updFun, hw]
        omega
      · simp [updFun, hw, hkw, Ne.symm hkw]
    · by_cases hkw : k = w
      · subst hkw
        simp [updFun, hw]
      · simp [updFun, hw, hkw, Ne.symm hkw]

theorem regfold_excel (rp : Str) (fh : Str → Nat) (fr : Str → List Str) :
    ∀ (kws : List Str) (st : SState),
      (kws.foldl (regStep rp fh fr) st).excel = st.excel := by
  intro kws
  induction kws with
  | nil => intro st; simp
  | cons w rest ih =>
    intro st
    simp only [List.foldl_cons]
    rw [ih]
    unfold regStep
    by_cases hw : 0 < fh w
    · simp [hw]
    · simp [hw]

theorem countP_enum_snd (q : Str → Bool) (lines : List Str) :
    lines.enum.countP (fun p => q p.2) = lines.countP q := by
  rw [show (fun (p : Nat × Str) => q p.2) = (q ∘ Prod.snd) from rfl,
    ← List.countP_map, List.enum_map_snd]

theorem mul_pos_ind (n m : Nat) :
    n * (if 0 < n * m then 1 else 0) = n * (if 0 < m then 1 else 0) := by
  rcases Nat.eq_zero_or_pos n with hn | hn
  · simp [hn]
  · rcases Nat.eq_zero_or_pos m with hm | hm
    · simp [hm]
    · have h : 0 < n * m := Nat.mul_pos hn hm
      simp [h, hm]

theorem procFile_hit (kws : List Str) (st : SState) (pf : Str × List Str)
    (k : Str) :
    ((procFile kws st pf).res k).hit_count
      = (st.res k).hit_count + kws.count k * lineCount k pf.2 := by
  unfold procFile registerFile procLines
  rw [regfold_hit, linesfold_hit, countP_enum_snd]
  rfl

theorem procFile_file_count (kws : List Str) (st : SState)
    (pf : Str × List Str) (k : Str) :
    ((procFile kws st pf).res k).file_count
      = (st.res k).file_count
          + kws.count k * (if 0 < lineCount k pf.2 then 1 else 0) := by
  unfold procFile registerFile procLines
  rw [regfold_file_count, linesfold_file_count, linesfold_file_hits,
    countP_enum_snd]
  show (st.res k).file_count
      + kws.count k * (if 0 < 0 + kws.count k * lineCount k pf.2 then 1 else 0) = _
  rw [Nat.zero_add, mul_pos_ind]

theorem procFile_excel (kws : List Str) (st : SState) (pf : Str × List Str) :
    (procFile kws st pf).excel = st.excel ++ fileRecords kws pf.1 pf.2 := by
  unfold procFile registerFile procLines fileRecords
  rw [regfold_excel, linesfold_excel]

theorem walkfold_hit (kws : List Str) (k : Str) :
    ∀ (files : List (Str × List Str)) (st : SState),
      ((files.foldl (procFile kws) st).res k).hit_count
        = (st.res k).hit_count + kws.count k * walkHitTotal k files := by
  intro files
  induction files with
  | nil => intro st; simp [walkHitTotal]
  | cons pf rest ih =>
    intro st
    simp only [List.foldl_cons]
    rw [ih, procFile_hit]
    simp only [walkHitTotal, List.map_cons, List.sum_cons]
    ring

theorem walkfold_file_count (kws : List Str) (k : Str) :
    ∀ (files : List (Str × List Str)) (st : SState),
      ((files.foldl (procFile kws) st).res k).file_count
        = (st.res k).file_count + kws.count k * walkFileTotal k files := by
  intro files
  induction files with
  | nil => intro st; simp [walkFileTotal]
  | cons pf rest ih =>
    intro st
    simp only [List.foldl_cons]
    rw [ih, procFile_file_count]
    simp only [walkFileTotal, List.countP_cons, decide_eq_true_eq]
    ring

theorem walkfold_excel (kws : List Str) :
    ∀ (files : List (Str × List Str)) (st : SState),
      (files.foldl (procFile kws) st).excel
        = st.excel ++ files.flatMap (fun pf => fileRecords kws pf.1 pf.2) := by
  intro files
  induction files with
  | nil => intro st; simp
  | cons pf rest ih =>
    intro st
    simp only [List.foldl_cons]
    rw [ih, procFile_excel]
    simp [List.append_assoc]

/-- Closed form of a keyword's total hit count: (multiplicity of the keyword
in the list) times (number of matching (file, line) pairs). -/
theorem searchFiles_hit_count (kws : List Str) (base : Option FSTree)
    (k : Str) :
    ((searchFiles kws base).res k).hit_count
      = kws.count k * walkHitTotal k (osWalkFiles base) := by
  unfold searchFiles
  rw [walkfold_hit]
  simp [Summary.init]

/-- Closed form of a keyword's file count: (multiplicity of the keyword in
the list) times (number of files with at least one matching line). -/
theorem searchFiles_file_count (kws : List Str) (base : Option FSTree)
    (k : Str) :
    ((searchFiles kws base).res k).file_count
      = kws.count k * walkFileTotal k (osWalkFiles base) := by
  unfold searchFiles
  rw [walkfold_file_count]
  simp [Summary.init]

/-- Closed form of the detail record list: the per-file record blocks in walk
order. -/
theorem searchFiles_excel (kws : List Str) (base : Option FSTree) :
    (searchFiles kws base).excel
      = (osWalkFiles base).flatMap (fun pf => fileRecords kws pf.1 pf.2) := by
  unfold searchFiles
  rw [walkfold_excel]
  rfl

theorem count_pos_of_mem {l : List Str} {a : Str} (h : a ∈ l) :
    0 < l.count a := by
  induction l with
  | nil => cases h
  | cons b rest ih =>
    rw [List.count_cons]
    rcases List.mem_cons.mp h with rfl | h1
    · simp
    · have := ih h1
      omega

theorem countP_mul_pos_lineCount (k : Str) (n : Nat) (hn : 0 < n)
    (files : List (Str × List Str)) :
    files.countP (fun pf => decide (0 < n * lineCount k pf.2))
      = walkFileTotal k files := by
  unfold walkFileTotal
  refine List.countP_congr ?_
  intro pf _
  rcases Nat.eq_zero_or_pos (lineCount k pf.2) with h0 | h0
  · rw [h0]
    simp
  · have h1 : 0 < n * lineCount k pf.2 := Nat.mul_pos hn h0
    simp [h0, h1]

/-- C10: duplicated keywords share the single dict entry keyed by the
keyword string (`results = {keyword: ... for keyword in keywords}`), and the
keyword loop at `search.py:147` runs once per occurrence, so every count is
scaled by the keyword's multiplicity: the reported totals are exactly
`n` times those reported when the keyword is listed once. -/
theorem C10_duplicate_keyword_counts_scale (kws : List Str)
    (base : Option FSTree) (k : Str) :
    ((searchFiles kws base).res k).hit_count
        = kws.count k * ((searchFiles [k] base).res k).hit_count
      ∧ ((searchFiles kws base).res k).file_count
          = kws.count k * ((searchFiles [k] base).res k).file_count := by
  have h2 := searchFiles_hit_count [k] base k
  have h4 := searchFiles_file_count [k] base k
  have hc : ([k] : List Str).count k = 1 := by simp
  rw [searchFiles_hit_count kws base k, searchFiles_file_count kws base k,
    h2, h4, hc, one_mul, one_mul]
  exact ⟨rfl, rfl⟩

theorem walkFileTotal_le_walkHitTotal (k : Str) :
    ∀ (files : List (Str × List Str)),
      walkFileTotal k files ≤ walkHitTotal k files := by
  intro files
  induction files with
  | nil => simp [walkFileTotal, walkHitTotal]
  | cons pf rest ih =>
    simp only [walkFileTotal, walkHitTotal, List.countP_cons, List.map_cons,
      List.sum_cons, decide_eq_true_eq] at ih ⊢
    by_cases hp : 0 < lineCount k pf.2
    · simp only [hp, if_true]
      omega
    · simp only [hp, if_false]
      omega

theorem flatMap_ite_replicate (ps : List α) (q : α → Bool) (n : Nat) (x : β) :
    ps.flatMap (fun p => if q p then List.replicate n x else [])
      = List.replicate (n * ps.countP q) x := by
  induction ps with
  | nil => simp
  | cons p rest ih =>
    rw [List.flatMap_cons, ih, List.countP_cons]
    by_cases hq : q p
    · simp only [hq, if_true]
      rw [show n * (List.countP q rest + 1) = n + n * List.countP q rest from by ring]
      rw [List.replicate_add]
    · simp [hq]

theorem lineRecs_filter_map (kws : List Str) (k rp : Str) (lines : List Str)
    (p : Nat × Str) :
    (((lineRecs kws rp lines p).filter (fun r => r.kw == k)).map
        (fun r => r.file))
      = if lineHit k p.2 then List.replicate (kws.count k) rp else [] := by
  unfold lineRecs
  rw [List.filter_map, List.filter_filter]
  have hcongr : (kws.filter
      (fun w => ((fun r : MatchRec => r.kw == k) ∘
        (fun w => (⟨w, rp, p.1 + 1, pyStrip p.2, contextWindow lines p.1⟩ : MatchRec))) w
          && lineHit w p.2))
      = kws.filter (fun w => (w == k) && lineHit k p.2) := by
    refine List.filter_congr ?_
    intro w _
    show ((w == k) && lineHit w p.2) = ((w == k) && lineHit k p.2)
    by_cases hw : w = k
    · subst hw; rfl
    · have : (w == k) = false := by
        simp [hw]
      rw [this, Bool.false_and, Bool.false_and]
  rw [hcongr]
  by_cases hl : lineHit k p.2
  · rw [hl]
    simp only [Bool.and_true]
    rw [List.filter_beq, List.map_map, List.map_replicate]
    simp
  · have hlf : (lineHit k p.2) = false := by
      simp [hl]
    rw [hlf]
    simp

theorem fileRecords_filter_map (kws : List Str) (k rp : Str)
    (lines : List Str) :
    (((fileRecords kws rp lines).filter (fun r => r.kw == k)).map
        (fun r => r.file))
      = List.replicate (kws.count k * lineCount k lines) rp := by
  unfold fileRecords
  rw [List.filter_flatMap, List.map_flatMap]
  have h : (fun p => ((lineRecs kws rp lines p).filter
        (fun r => r.kw == k)).map (fun r => r.file))
      = (fun p : Nat × Str =>
          if lineHit k p.2 then List.replicate (kws.count k) rp else []) := by
    funext p
    exact lineRecs_filter_map kws k rp lines p
  rw [h, flatMap_ite_replicate]
  unfold lineCount
  rw [countP_enum_snd]

theorem mem_map_fst_of_mem_flatMap_replicate {files : List (Str × List Str)}
    {n : Str × List Str → Nat} {y : Str}
    (h : y ∈ files.flatMap (fun pf => List.replicate (n pf) pf.1)) :
    y ∈ files.map Prod.fst := by
  rw [List.mem_flatMap] at h
  obtain ⟨pf, hpf, hy⟩ := h
  rw [List.eq_of_mem_replicate hy]
  exact List.mem_map_of_mem Prod.fst hpf

theorem dedup_length_flatMap_replicate :
    ∀ (files : List (Str × List Str)) (n : Str × List Str → Nat),
      (files.map Prod.fst).Nodup →
      ((files.flatMap (fun pf => List.replicate (n pf) pf.1)).dedup).length
        = files.countP (fun pf => decide (0 < n pf)) := by
  intro files
  induction files with
  | nil => intro n _; simp
  | cons pf rest ih =>
    intro n hnd
    rw [List.map_cons, List.nodup_cons] at hnd
    obtain ⟨hnotin, hnd'⟩ := hnd
    rw [List.flatMap_cons, ← List.card_toFinset, List.toFinset_append,
      List.countP_cons]
    rcases Nat.eq_zero_or_pos (n pf) with h0 | h0
    · rw [h0]
      simp only [List.replicate_zero, List.toFinset_nil, Finset.empty_union]
      rw [List.card_toFinset, ih n hnd']
      simp [h0]
    · rw [List.toFinset_replicate_of_ne_zero (Nat.pos_iff_ne_zero.mp h0)]
      have hnm : pf.1 ∉ (rest.flatMap
          (fun q => List.replicate (n q) q.1)).toFinset := by
        rw [List.mem_toFinset]
        intro hmem
        exact hnotin (mem_map_fst_of_mem_flatMap_replicate hmem)
      rw [← Finset.insert_eq, Finset.card_insert_of_not_mem hnm,
        List.card_toFinset, ih n hnd']
      have : decide (0 < n pf) = true := by
        simp [h0]
      rw [this]
      simp

/-- C6 counterexample: with the duplicated keyword list `["a", "a"]` over a
single one-line matching file, the reported `file_count` is 2 while only one
distinct file contributed records, so `file_count` does not equal the number
of distinct contributing files (the claim's `≤` half does hold here). -/
theorem C6_counterexample :
    ((searchFiles ["a".data, "a".data] (some dupTree)).res "a".data).hit_count = 2
      ∧ ((searchFiles ["a".data, "a".data] (some dupTree)).res "a".data).file_count = 2
      ∧ (contribFiles (searchFiles ["a".data, "a".data] (some dupTree))
          "a".data).length = 1 := by
  decide

/-- C6 (amended): for every keyword k in the keyword list (over genuinely
distinct file paths, as on a real file system), `file_count(k) ≤
hit_count(k)`; and `file_count(k)` equals k's multiplicity in the keyword
list times the number of distinct files that contributed at least one match
record for k — so for a duplicate-free list it equals the distinct
contributing files, and for a keyword listed n times it is n times that
number. -/
theorem C6_amended_file_count_invariant (kws : List Str)
    (base : Option FSTree) (k : Str)
    (hk : k ∈ kws)
    (hpaths : ((osWalkFiles base).map Prod.fst).Nodup) :
    ((searchFiles kws base).res k).file_count
        ≤ ((searchFiles kws base).res k).hit_count
      ∧ ((searchFiles kws base).res k).file_count
          = kws.count k * (contribFiles (searchFiles kws base) k).length := by
  have hcpos : 0 < kws.count k := count_pos_of_mem hk
  constructor
  · rw [searchFiles_hit_count, searchFiles_file_count]
    exact Nat.mul_le_mul (Nat.le_refl _)
      (walkFileTotal_le_walkHitTotal k (osWalkFiles base))
  · rw [searchFiles_file_count]
    unfold contribFiles
    rw [searchFiles_excel, List.filter_flatMap, List.map_flatMap]
    have hfun : (fun pf : Str × List Str =>
          ((fileRecords kws pf.1 pf.2).filter (fun r => r.kw == k)).map
            (fun r => r.file))
        = (fun pf : Str × List Str =>
            List.replicate (kws.count k * lineCount k pf.2) pf.1) := by
      funext pf
      exact fileRecords_filter_map kws k pf.1 pf.2
    rw [hfun, dedup_length_flatMap_replicate (osWalkFiles base)
      (fun pf => kws.count k * lineCount k pf.2) hpaths]
    rw [countP_mul_pos_lineCount k (kws.count k) hcpos]

/-- Witness for `C6_amended_file_count_invariant` at the duplicated keyword
list `["a", "a"]` over `dupTree`: `file_count` is 2, which is the
multiplicity 2 times the 1 distinct contributing file. -/
theorem C6_amended_file_count_invariant_witness :
    ("a".data ∈ (["a".data, "a".data] : List Str)
        ∧ ((osWalkFiles (some dupTree)).map Prod.fst).Nodup)
      ∧ (((searchFiles ["a".data, "a".data] (some dupTree)).res
              "a".data).file_count
            ≤ ((searchFiles ["a".data, "a".data] (some dupTree)).res
                "a".data).hit_count
          ∧ ((searchFiles ["a".data, "a".data] (some dupTree)).res
                "a".data).file_count
              = (["a".data, "a".data] : List Str).count "a".data
                  * (contribFiles
                      (searchFiles ["a".data, "a".data] (some dupTree))
                      "a".data).length) :=
  ⟨⟨by decide, by decide⟩,
    C6_amended_file_count_invariant ["a".data, "a".data] (some dupTree)
      "a".data (by decide) (by decide)⟩

theorem strLe_refl : ∀ a : Str, strLe a a = true := by
  intro a
  induction a with
  | nil => rfl
  | cons c cs ih =>
    show strLe (c :: cs) (c :: cs) = true
    rw [strLe]
    simp [ih]

theorem strLe_total : ∀ a b : Str, strLe a b = true ∨ strLe b a = true := by
  intro a
  induction a with
  | nil => intro b; left; rfl
  | cons c cs ih =>
    intro b
    cases b with
    | nil => right; rfl
    | cons d ds =>
      show strLe (c :: cs) (d :: ds) = true ∨ strLe (d :: ds) (c :: cs) = true
      rw [strLe, strLe]
      by_cases hcd : c = d
      · subst hcd
        simp only [if_pos rfl]
        exact ih ds
      · rcases lt_or_gt_of_ne hcd with hlt | hgt
        · left
          simp [hcd, hlt]
        · right
          simp [Ne.symm hcd, hgt]

theorem strLe_trans :
    ∀ a b c : Str, strLe a b = true → strLe b c = true → strLe a c = true := by
  intro a
  induction a with
  | nil => intro b c _ _; rfl
  | cons x xs ih =>
    intro b c hab hbc
    cases b with
    | nil => exact absurd hab (by simp [strLe])
    | cons y ys =>
      cases c with
      | nil => exact absurd hbc (by simp [strLe])
      | cons z zs =>
        rw [strLe] at hab hbc ⊢
        by_cases hxy : x = y
        · subst hxy
          by_cases hyz : x = z
          · subst hyz
            simp only [if_pos rfl] at hab hbc ⊢
            exact ih ys zs hab hbc
          · simp only [if_pos rfl] at hab
            simp only [hyz, if_neg] at hbc ⊢
            exact hbc
        · by_cases hyz : y = z
          · subst hyz
            simp only [hxy, if_neg] at hab ⊢
            exact hab
          · simp only [hxy, hyz, if_neg] at hab hbc
            have hlt : x < z :=
              lt_trans (of_decide_eq_true hab) (of_decide_eq_true hbc)
            have hxz : x ≠ z := ne_of_lt hlt
            simp [hxz, hlt]

theorem strLe_antisymm :
    ∀ a b : Str, strLe a b = true → strLe b a = true → a = b := by
  intro a
  induction a with
  | nil =>
    intro b _ hba
    cases b with
    | nil => rfl
    | cons d ds => exact absurd hba (by simp [strLe])
  | cons c cs ih =>
    intro b hab hba
    cases b with
    | nil => exact absurd hab (by simp [strLe])
    | cons d ds =>
      rw [strLe] at hab hba
      by_cases hcd : c = d
      · subst hcd
        simp only [if_pos rfl] at hab hba
        rw [ih ds hab hba]
      · simp only [hcd, Ne.symm hcd, if_neg] at hab hba
        exact absurd (of_decide_eq_true hba)
          (lt_asymm (of_decide_eq_true hab))

theorem recLe_total : ∀ r s : MatchRec, recLe r s || recLe s r := by
  intro r s
  rw [Bool.or_eq_true]
  unfold recLe
  by_cases hf : r.file = s.file
  · rw [if_pos hf, if_pos hf.symm]
    exact strLe_total r.kw s.kw
  · rw [if_neg hf, if_neg (Ne.symm hf)]
    exact strLe_total r.file s.file

theorem recLe_trans :
    ∀ r s t : MatchRec, recLe r s → recLe s t → recLe r t := by
  intro r s t hrs hst
  unfold recLe at hrs hst ⊢
  by_cases h1 : r.file = s.file
  · by_cases h2 : s.file = t.file
    · have h3 : r.file = t.file := h1.trans h2
      simp only [h1, h2, h3, if_pos rfl] at hrs hst ⊢
      exact strLe_trans _ _ _ hrs hst
    · have h3 : r.file ≠ t.file := h1 ▸ h2
      simp only [h2, h3, if_neg] at hst ⊢
      rw [h1]
      exact hst
  · by_cases h2 : s.file = t.file
    · have h3 : r.file ≠ t.file := fun h => h1 (h.trans h2.symm)
      simp only [h1, h3, if_neg] at hrs ⊢
      rw [← h2]
      exact hrs
    · simp only [h1, h2, if_neg] at hrs hst
      have h3 : r.file ≠ t.file := by
        intro h
        exact h1 (strLe_antisymm _ _ hrs (h ▸ hst))
      simp only [h3, if_neg]
      exact strLe_trans _ _ _ hrs hst

/-- C8: the Renderer sorts the detail records by file path ascending, then
keyword ascending (the lexicographic key of `search.py:257`), and the sort
is stable: for every (file, keyword) key class, the sorted output lists its
records in exactly the original scan order. -/
theorem C8_sort_order_and_stability (data : List MatchRec) :
    (sortRecords data).Pairwise (fun r s => recLe r s = true)
      ∧ ∀ f k : Str,
          (sortRecords data).filter (fun r => r.file == f && r.kw == k)
            = data.filter (fun r => r.file == f && r.kw == k) := by
  constructor
  · exact List.sorted_mergeSort recLe_trans recLe_total data
  · intro f k
    set p := fun r : MatchRec => r.file == f && r.kw == k with hp
    have hmem : ∀ r ∈ data.filter p, r.file = f ∧ r.kw = k := by
      intro r hr
      have := List.of_mem_filter hr
      rw [hp] at this
      simp only [Bool.and_eq_true, beq_iff_eq] at this
      exact this
    have hc : (data.filter p).Pairwise (fun r s => recLe r s = true) := by
      refine List.pairwise_of_forall_mem_list ?_
      intro a ha b hb
      obtain ⟨haf, hak⟩ := hmem a ha
      obtain ⟨hbf, hbk⟩ := hmem b hb
      unfold recLe
      rw [haf, hbf, if_pos rfl, hak, hbk]
      exact strLe_refl k
    have hsub : List.Sublist (data.filter p) (sortRecords data) :=
      List.sublist_mergeSort recLe_trans recLe_total hc (List.filter_sublist data)
    have hself : (data.filter p).filter p = data.filter p := by
      rw [List.filter_filter]
      refine List.filter_congr ?_
      intro a _
      cases hpa : p a <;> simp [hpa]
    have hsubf : List.Sublist (data.filter p) ((sortRecords data).filter p) := by
      rw [← hself]
      exact hsub.filter p
    have hperm : List.Perm ((sortRecords data).filter p) (data.filter p) :=
      (List.mergeSort_perm data recLe).filter p
    exact ((hsubf.eq_of_length (hperm.length_eq.symm)).symm)

theorem borderSeq_cons (cf ck : Option Str) (r : MatchRec) (rest : List MatchRec) :
    borderSeq cf ck (r :: rest)
      = (if cf ≠ none ∧ cf ≠ some r.file then BStyle.medium
         else if ck ≠ none ∧ ck ≠ some r.kw ∧ cf = some r.file then BStyle.thin
         else BStyle.thin) :: borderSeq (some r.file) (some r.kw) rest := rfl

/-- The two example records are already in sorted order. -/
theorem sortRecords_exAB : sortRecords [exRecA, exRecB] = [exRecA, exRecB] :=
  List.mergeSort_of_sorted (by decide)

theorem borderSeq_length :
    ∀ (l : List MatchRec) (cf ck : Option Str),
      (borderSeq cf ck l).length = l.length := by
  intro l
  induction l with
  | nil => intro cf ck; rfl
  | cons r rest ih =>
    intro cf ck
    show _ + 1 = _ + 1
    rw [ih]

theorem borderSeq_getD :
    ∀ (l : List MatchRec) (pf : Str) (pk : Option Str) (i : Nat),
      i < l.length →
      ((borderSeq (some pf) pk l).getD i BStyle.thin = BStyle.medium
        ↔ (l.getD i default).file
            ≠ (if i = 0 then pf else (l.getD (i - 1) default).file)) := by
  intro l
  induction l with
  | nil =>
    intro pf pk i hi
    exact absurd hi (by simp)
  | cons r rest ih =>
    intro pf pk i hi
    cases i with
    | zero =>
      rw [borderSeq_cons, List.getD_cons_zero]
      by_cases hpf : pf = r.file
      · subst hpf
        have hcond : ¬(some r.file ≠ none ∧ some r.file ≠ some r.file) := by
          simp
        rw [if_neg hcond, ite_self]
        simp
      · have hcond : (some pf ≠ none ∧ some pf ≠ some r.file) := by
          simp [hpf]
        rw [if_pos hcond]
        simp [Ne.symm hpf]
    | succ j =>
      rw [borderSeq_cons, List.getD_cons_succ]
      have hj : j < rest.length := by
        simp at hi
        omega
      rw [ih r.file (some r.kw) j hj]
      cases j with
      | zero => simp
      | succ m => simp

/-- C5 counterexample: for two records in distinct files `a.txt` and `b.txt`
(already in sorted order), the border pass assigns the first row — the first
record of a new file group — a THIN top border (`current_file` is `None`, so
the medium branch is not taken), and only the second file's first row a
medium one; the claim's "always" fails on the first file group. -/
theorem C5_counterexample :
    sortRecords [exRecA, exRecB] = [exRecA, exRecB]
      ∧ topBorderStyles [exRecA, exRecB] = [BStyle.thin, BStyle.medium] := by
  refine ⟨sortRecords_exAB, ?_⟩
  unfold topBorderStyles
  rw [sortRecords_exAB]
  decide

/-- C5 (amended): in the border pass over the sorted records, the very first
row always receives a thin top border, and any later row receives a medium
top border exactly when its file differs from the previous row's file (i.e.
it begins a new file group other than the first); all other rows — including
the first record of a new keyword group within the same file — receive
thin. -/
theorem C5_amended_border_weights (data : List MatchRec) (i : Nat)
    (h : i + 1 < (sortRecords data).length) :
    (topBorderStyles data).getD 0 BStyle.medium = BStyle.thin
      ∧ ((topBorderStyles data).getD (i + 1) BStyle.thin = BStyle.medium
          ↔ ((sortRecords data).getD (i + 1) default).file
              ≠ ((sortRecords data).getD i default).file) := by
  unfold topBorderStyles
  rcases hl : sortRecords data with _ | ⟨r, rest⟩
  · rw [hl] at h
    exact absurd h (by simp)
  · rw [hl] at h
    constructor
    · rw [borderSeq_cons, List.getD_cons_zero]
      have hcond : ¬((none : Option Str) ≠ none ∧ (none : Option Str) ≠ some r.file) := by
        simp
      rw [if_neg hcond, ite_self]
    · rw [borderSeq_cons, List.getD_cons_succ]
      have hi : i < rest.length := by
        simp at h
        omega
      rw [borderSeq_getD rest r.file (some r.kw) i hi]
      cases i with
      | zero => simp
      | succ m => simp

/-- Witness for `C5_amended_border_weights` at the two-file record list,
boundary index 0. -/
theorem C5_amended_border_weights_witness :
    0 + 1 < (sortRecords [exRecA, exRecB]).length
      ∧ ((topBorderStyles [exRecA, exRecB]).getD 0 BStyle.medium = BStyle.thin
          ∧ ((topBorderStyles [exRecA, exRecB]).getD (0 + 1) BStyle.thin = BStyle.medium
              ↔ ((sortRecords [exRecA, exRecB]).getD (0 + 1) default).file
                  ≠ ((sortRecords [exRecA, exRecB]).getD 0 default).file)) :=
  ⟨by simp [sortRecords], C5_amended_border_weights [exRecA, exRecB] 0 (by simp [sortRecords])⟩

theorem alookup_aupd_self (m : List (Str × α)) (k : Str) (v : α) :
    alookup (aupd m k v) k = some v := by
  induction m with
  | nil => simp [aupd, alookup]
  | cons p rest ih =>
    by_cases h : p.1 = k
    · show alookup (aupd (_ :: rest) k v) k = some v
      rw [show aupd (p :: rest) k v = (k, v) :: rest from by
        rw [show (p : Str × α) = (p.1, p.2) from rfl, aupd, if_pos h]]
      simp [alookup]
    · rw [show aupd (p :: rest) k v = (p.1, p.2) :: aupd rest k v from by
        rw [show (p : Str × α) = (p.1, p.2) from rfl, aupd, if_neg h]]
      rw [alookup, if_neg (fun hh => h hh.symm)]
      exact ih

theorem alookup_aupd_other (m : List (Str × α)) (k x : Str) (v : α)
    (h : x ≠ k) : alookup (aupd m k v) x = alookup m x := by
  induction m with
  | nil =>
    simp only [aupd, alookup]
    rw [if_neg h]
  | cons p rest ih =>
    by_cases hp : p.1 = k
    · rw [show aupd (p :: rest) k v = (k, v) :: rest from by
        rw [show (p : Str × α) = (p.1, p.2) from rfl, aupd, if_pos hp]]
      rw [alookup, if_neg h,
        show alookup (p :: rest) x = alookup ((p.1, p.2) :: rest) x from rfl,
        alookup]
      rw [if_neg (hp ▸ h)]
    · rw [show aupd (p :: rest) k v = (p.1, p.2) :: aupd rest k v from by
        rw [show (p : Str × α) = (p.1, p.2) from rfl, aupd, if_neg hp]]
      rw [alookup,
        show alookup (p :: rest) x = alookup ((p.1, p.2) :: rest) x from rfl,
        alookup]
      by_cases hx : x = p.1
      · rw [if_pos hx, if_pos hx]
      · rw [if_neg hx, if_neg hx]
        exact ih

theorem aupd_aupd_self (m : List (Str × α)) (k : Str) (v w : α) :
    aupd (aupd m k v) k w = aupd m k w := by
  induction m with
  | nil => simp [aupd]
  | cons p rest ih =>
    by_cases hp : p.1 = k
    · rw [show aupd (p :: rest) k v = (k, v) :: rest from by
        rw [show (p : Str × α) = (p.1, p.2) from rfl, aupd, if_pos hp]]
      rw [show aupd ((k, v) :: rest) k w = (k, w) :: rest from by
        rw [aupd, if_pos rfl]]
      rw [show aupd (p :: rest) k w = (k, w) :: rest from by
        rw [show (p : Str × α) = (p.1, p.2) from rfl, aupd, if_pos hp]]
    · rw [show aupd (p :: rest) k v = (p.1, p.2) :: aupd rest k v from by
        rw [show (p : Str × α) = (p.1, p.2) from rfl, aupd, if_neg hp]]
      rw [show aupd ((p.1, p.2) :: aupd rest k v) k w
            = (p.1, p.2) :: aupd (aupd rest k v) k w from by
        rw [aupd, if_neg hp]]
      rw [ih]
      rw [show aupd (p :: rest) k w = (p.1, p.2) :: aupd rest k w from by
        rw [show (p : Str × α) = (p.1, p.2) from rfl, aupd, if_neg hp]]

theorem colorStep_new (s : ColorState) (r : MatchRec)
    (h : some r.file ≠ s.cur_file) :
    colorStep s r
      = { file_colors := aupd s.file_colors r.file (fColor (!s.file_toggle)),
          kw_colors := aupd s.kw_colors r.file [(r.kw, color_b1)],
          cur_file := some r.file,
          file_toggle := !s.file_toggle,
          kw_toggle := true } := by
  unfold colorStep
  rw [if_pos h]
  unfold colorStepKw
  simp only [alookup_aupd_self]
  show ({ file_colors := aupd s.file_colors r.file (fColor (!s.file_toggle)),
          kw_colors := aupd (aupd s.kw_colors r.file []) r.file
            (aupd ([] : List (Str × String)) r.kw (kColor (!false))),
          cur_file := some r.file,
          file_toggle := !s.file_toggle,
          kw_toggle := !false } : ColorState) = _
  rw [aupd_aupd_self]
  rfl

theorem colorStep_same_none (s : ColorState) (r : MatchRec)
    (h : some r.file = s.cur_file)
    (hm : alookup s.kw_colors r.file = none) :
    colorStep s r = s := by
  unfold colorStep
  rw [if_neg (fun hh => hh h)]
  unfold colorStepKw
  rw [hm]

theorem colorStep_same_found (s : ColorState) (r : MatchRec)
    (h : some r.file = s.cur_file)
    {m : List (Str × String)} (hm : alookup s.kw_colors r.file = some m)
    {c : String} (hk : alookup m r.kw = some c) :
    colorStep s r = s := by
  unfold colorStep
  rw [if_neg (fun hh => hh h)]
  unfold colorStepKw
  rw [hm]
  simp only []
  rw [hk]

theorem colorStep_same_newkw (s : ColorState) (r : MatchRec)
    (h : some r.file = s.cur_file)
    {m : List (Str × String)} (hm : alookup s.kw_colors r.file = some m)
    (hk : alookup m r.kw = none) :
    colorStep s r
      = { s with
          kw_toggle := !s.kw_toggle,
          kw_colors := aupd s.kw_colors r.file
            (aupd m r.kw (kColor (!s.kw_toggle))) } := by
  unfold colorStep
  rw [if_neg (fun hh => hh h)]
  unfold colorStepKw
  rw [hm]
  simp only []
  rw [hk]

theorem contig_tail {f : Str} {fs : List Str} (h : Contig (f :: fs)) :
    Contig fs := h.1

theorem contig_not_mem {f g : Str} {fs : List Str}
    (h : Contig (f :: g :: fs)) (hne : f ≠ g) : f ∉ (g :: fs) := by
  intro hmem
  have h2 := h.2 hmem
  simp only [List.head?_cons, Option.some.injEq] at h2
  exact hne h2.symm

theorem contig_of_pairwise :
    ∀ fs : List Str, fs.Pairwise (fun a b => strLe a b = true) → Contig fs := by
  intro fs
  induction fs with
  | nil => intro _; trivial
  | cons f rest ih =>
    intro h
    rw [List.pairwise_cons] at h
    refine ⟨ih h.2, ?_⟩
    intro hmem
    cases rest with
    | nil => cases hmem
    | cons g t =>
      simp only [List.head?_cons, Option.some.injEq]
      rcases List.mem_cons.mp hmem with h1 | h1
      · exact h1.symm
      · have hfg : strLe f g = true := h.1 g (List.mem_cons_self g t)
        have hp2 := h.2
        rw [List.pairwise_cons] at hp2
        have hgf : strLe g f = true := hp2.1 f h1
        exact (strLe_antisymm f g hfg hgf).symm

theorem colorStepKw_file_colors (s1 : ColorState) (r : MatchRec) :
    (colorStepKw s1 r).file_colors = s1.file_colors := by
  unfold colorStepKw
  split
  · rfl
  · split
    · rfl
    · rfl

theorem colorStepKw_cur_file (s1 : ColorState) (r : MatchRec) :
    (colorStepKw s1 r).cur_file = s1.cur_file := by
  unfold colorStepKw
  split
  · rfl
  · split
    · rfl
    · rfl

theorem colorStepKw_file_toggle (s1 : ColorState) (r : MatchRec) :
    (colorStepKw s1 r).file_toggle = s1.file_toggle := by
  unfold colorStepKw
  split
  · rfl
  · split
    · rfl
    · rfl

theorem colorStepKw_kw_other (s1 : ColorState) (r : MatchRec) (f : Str)
    (hf : f ≠ r.file) :
    alookup (colorStepKw s1 r).kw_colors f = alookup s1.kw_colors f := by
  unfold colorStepKw
  split
  · rfl
  · split
    · rfl
    · exact alookup_aupd_other _ _ _ _ hf

/-- With the current file unchanged, a step preserves the file-color map,
the current file and the file toggle. -/
theorem colorStep_same_preserves (s : ColorState) (r : MatchRec)
    (h : some r.file = s.cur_file) :
    (colorStep s r).file_colors = s.file_colors
      ∧ (colorStep s r).cur_file = s.cur_file
      ∧ (colorStep s r).file_toggle = s.file_toggle := by
  unfold colorStep
  rw [if_neg (fun hh => hh h)]
  exact ⟨colorStepKw_file_colors s r, colorStepKw_cur_file s r,
    colorStepKw_file_toggle s r⟩

theorem colorStep_file_colors_other (s : ColorState) (r : MatchRec) (f : Str)
    (hf : f ≠ r.file) :
    alookup (colorStep s r).file_colors f = alookup s.file_colors f := by
  unfold colorStep
  rw [colorStepKw_file_colors]
  by_cases hc : some r.file ≠ s.cur_file
  · rw [if_pos hc]
    exact alookup_aupd_other _ _ _ _ hf
  · rw [if_neg hc]

theorem colorStep_kw_colors_other (s : ColorState) (r : MatchRec) (f : Str)
    (hf : f ≠ r.file) :
    alookup (colorStep s r).kw_colors f = alookup s.kw_colors f := by
  unfold colorStep
  rw [colorStepKw_kw_other _ _ _ hf]
  by_cases hc : some r.file ≠ s.cur_file
  · rw [if_pos hc]
    exact alookup_aupd_other _ _ _ _ hf
  · rw [if_neg hc]

theorem assign_stable_file :
    ∀ (l : List MatchRec) (s : ColorState) (f : Str),
      f ∉ l.map (fun r => r.file) →
      alookup (assignColors l s).file_colors f = alookup s.file_colors f := by
  intro l
  induction l with
  | nil => intro s f _; rfl
  | cons r rest ih =>
    intro s f hf
    rw [List.map_cons, List.mem_cons] at hf
    push_neg at hf
    show alookup (assignColors rest (colorStep s r)).file_colors f = _
    rw [ih (colorStep s r) f hf.2, colorStep_file_colors_other s r f hf.1]

theorem assign_stable_kw :
    ∀ (l : List MatchRec) (s : ColorState) (f : Str),
      f ∉ l.map (fun r => r.file) →
      alookup (assignColors l s).kw_colors f = alookup s.kw_colors f := by
  intro l
  induction l with
  | nil => intro s f _; rfl
  | cons r rest ih =>
    intro s f hf
    rw [List.map_cons, List.mem_cons] at hf
    push_neg at hf
    show alookup (assignColors rest (colorStep s r)).kw_colors f = _
    rw [ih (colorStep s r) f hf.2, colorStep_kw_colors_other s r f hf.1]

theorem fColor_ne_not (t : Bool) : fColor t ≠ fColor (!t) := by
  cases t <;> simp [fColor, color_a1, color_a2]

/-- Main invariant of the color pass over a file-contiguous record list:
the incoming current file keeps its color to the end, adjacent distinct
files end with different colors, and every encountered file ends with some
color. -/
theorem assign_main :
    ∀ (l : List MatchRec) (s : ColorState) (cf : Str),
      s.cur_file = some cf →
      alookup s.file_colors cf = some (fColor s.file_toggle) →
      Contig (cf :: l.map (fun r => r.file)) →
      alookup (assignColors l s).file_colors cf = some (fColor s.file_toggle)
        ∧ List.Chain'
            (fun a b => a ≠ b →
              alookup (assignColors l s).file_colors a
                ≠ alookup (assignColors l s).file_colors b)
            (cf :: l.map (fun r => r.file))
        ∧ (∀ f ∈ l.map (fun r => r.file),
            ∃ c, alookup (assignColors l s).file_colors f = some c) := by
  intro l
  induction l with
  | nil =>
    intro s cf hcur hlook _
    refine ⟨hlook, ?_, ?_⟩
    · exact List.chain'_singleton cf
    · intro f hf
      cases hf
  | cons r rest ih =>
    intro s cf hcur hlook hcontig
    rw [List.map_cons] at hcontig
    have hstep : assignColors (r :: rest) s = assignColors rest (colorStep s r) := rfl
    by_cases hf : r.file = cf
    · -- the current file's run continues
      have hsame : some r.file = s.cur_file := by
        rw [hcur, hf]
      obtain ⟨hfc, hcf, hft⟩ := colorStep_same_preserves s r hsame
      have hcur' : (colorStep s r).cur_file = some cf := by
        rw [hcf, hcur]
      have hlook' : alookup (colorStep s r).file_colors cf
          = some (fColor (colorStep s r).file_toggle) := by
        rw [hfc, hft, hlook]
      have hcontig' : Contig (cf :: rest.map (fun r => r.file)) := by
        have h1 := hcontig.1
        rw [hf] at h1
        exact h1
      obtain ⟨ih1, ih2, ih3⟩ := ih (colorStep s r) cf hcur' hlook' hcontig'
      rw [hft] at ih1
      rw [hstep]
      refine ⟨ih1, ?_, ?_⟩
      · rw [List.map_cons, hf, List.chain'_cons]
        exact ⟨fun hne => absurd rfl hne, ih2⟩
      · intro f hfm
        rw [List.map_cons] at hfm
        rcases List.mem_cons.mp hfm with h1 | h1
        · rw [h1, hf]
          exact ⟨_, ih1⟩
        · exact ih3 f h1
    · -- a new file starts
      have hne : some r.file ≠ s.cur_file := by
        rw [hcur]
        intro hh
        injection hh with hh'
        exact hf hh'
      have hnotmem : cf ∉ (r.file :: rest.map (fun r => r.file)) :=
        contig_not_mem hcontig (Ne.symm hf)
      have hcfne : cf ≠ r.file := Ne.symm hf
      have hcfnotrest : cf ∉ rest.map (fun r => r.file) := by
        intro hmem
        exact hnotmem (List.mem_cons_of_mem _ hmem)
      rw [colorStep_new s r hne] at hstep
      set s' : ColorState :=
        { file_colors := aupd s.file_colors r.file (fColor (!s.file_toggle)),
          kw_colors := aupd s.kw_colors r.file [(r.kw, color_b1)],
          cur_file := some r.file,
          file_toggle := !s.file_toggle,
          kw_toggle := true } with hs'
      have hcur' : s'.cur_file = some r.file := rfl
      have hlook' : alookup s'.file_colors r.file = some (fColor s'.file_toggle) := by
        rw [hs']
        exact alookup_aupd_self _ _ _
      have hcontig' : Contig (r.file :: rest.map (fun r => r.file)) := hcontig.1
      obtain ⟨ih1, ih2, ih3⟩ := ih s' r.file hcur' hlook' hcontig'
      have hcfcolor : alookup (assignColors rest s').file_colors cf
          = some (fColor s.file_toggle) := by
        rw [assign_stable_file rest s' cf hcfnotrest, hs']
        show alookup (aupd s.file_colors r.file _) cf = _
        rw [alookup_aupd_other _ _ _ _ hcfne, hlook]
      rw [hstep]
      refine ⟨hcfcolor, ?_, ?_⟩
      · rw [List.map_cons]
        rw [List.chain'_cons]
        constructor
        · intro _
          rw [hcfcolor, ih1]
          intro heq
          injection heq with heq'
          exact fColor_ne_not s.file_toggle heq'
        · exact ih2
      · intro f hfm
        rw [List.map_cons] at hfm
        rcases List.mem_cons.mp hfm with h1 | h1
        · rw [h1]
          exact ⟨_, ih1⟩
        · exact ih3 f h1

/-- A keyword-color entry, once present, survives the rest of the pass,
provided its file is the current one (with a contiguous remainder) or never
occurs again. -/
theorem assign_kw_preserve :
    ∀ (l : List MatchRec) (s : ColorState) (f k : Str) (c : String),
      ((s.cur_file = some f ∧ Contig (f :: l.map (fun r => r.file)))
        ∨ f ∉ l.map (fun r => r.file)) →
      (alookup s.kw_colors f).bind (fun m => alookup m k) = some c →
      (alookup (assignColors l s).kw_colors f).bind (fun m => alookup m k)
        = some c := by
  intro l
  induction l with
  | nil => intro s f k c _ hbind; exact hbind
  | cons r rest ih =>
    intro s f k c hside hbind
    have hstep : assignColors (r :: rest) s = assignColors rest (colorStep s r) := rfl
    rw [hstep]
    rcases hside with ⟨hcur, hcontig⟩ | hnm
    · rw [List.map_cons] at hcontig
      by_cases hrf : r.file = f
      · -- the entry's file is being processed: only other keywords get added
        have hsame : some r.file = s.cur_file := by
          rw [hcur, hrf]
        cases hm0 : alookup s.kw_colors f with
        | none =>
          rw [hm0] at hbind
          simp at hbind
        | some m₀ =>
          rw [hm0] at hbind
          simp only [Option.some_bind] at hbind
          have hm0' : alookup s.kw_colors r.file = some m₀ := by
            rw [hrf, hm0]
          have hcontig' : Contig (f :: rest.map (fun r => r.file)) := by
            have h1 := hcontig.1
            rw [hrf] at h1
            exact h1
          cases hkk : alookup m₀ r.kw with
          | some c' =>
            rw [colorStep_same_found s r hsame hm0' hkk]
            refine ih s f k c (Or.inl ⟨hcur, hcontig'⟩) ?_
            rw [hm0]
            simp only [Option.some_bind]
            exact hbind
          | none =>
            rw [colorStep_same_newkw s r hsame hm0' hkk]
            have hkne : k ≠ r.kw := by
              intro he
              rw [he] at hbind
              rw [hkk] at hbind
              cases hbind
            refine ih _ f k c (Or.inl ⟨?_, hcontig'⟩) ?_
            · exact hcur
            · show (alookup (aupd s.kw_colors r.file
                  (aupd m₀ r.kw (kColor (!s.kw_toggle)))) f).bind
                  (fun m => alookup m k) = some c
              rw [hrf, alookup_aupd_self]
              simp only [Option.some_bind]
              rw [alookup_aupd_other _ _ _ _ hkne]
              exact hbind
      · -- a different file starts: the entry's file never comes back
        have hne : some r.file ≠ s.cur_file := by
          rw [hcur]
          intro hh
          injection hh with hh'
          exact hrf hh'
        have hfnm : f ∉ rest.map (fun r => r.file) := by
          have h := contig_not_mem hcontig (fun he => hrf he.symm)
          intro hmem
          exact h (List.mem_cons_of_mem _ hmem)
        refine ih (colorStep s r) f k c (Or.inr hfnm) ?_
        rw [colorStep_kw_colors_other s r f (fun he => hrf he.symm)]
        exact hbind
    · -- the file never occurs in the remainder at all
      rw [List.map_cons, List.mem_cons] at hnm
      push_neg at hnm
      refine ih (colorStep s r) f k c (Or.inr hnm.2) ?_
      rw [colorStep_kw_colors_other s r f hnm.1]
      exact hbind

/-- Every record of a contiguous run receives some keyword-band color. -/
theorem assign_kw_exists :
    ∀ (l : List MatchRec) (s : ColorState) (cf : Str),
      s.cur_file = some cf →
      (∃ m, alookup s.kw_colors cf = some m) →
      Contig (cf :: l.map (fun r => r.file)) →
      ∀ r' ∈ l,
        ∃ c, (alookup (assignColors l s).kw_colors r'.file).bind
            (fun m => alookup m r'.kw) = some c := by
  intro l
  induction l with
  | nil =>
    intro s cf _ _ _ r' hr'
    cases hr'
  | cons r rest ih =>
    intro s cf hcur hex hcontig r' hr'
    rw [List.map_cons] at hcontig
    have hcontig1 : Contig (r.file :: rest.map (fun r => r.file)) := hcontig.1
    have hstep : assignColors (r :: rest) s = assignColors rest (colorStep s r) := rfl
    -- establish: after the step, the current file is r.file, its keyword map
    -- exists and holds an entry for r.kw
    have hkey : (colorStep s r).cur_file = some r.file
        ∧ (∃ m', alookup (colorStep s r).kw_colors r.file = some m')
        ∧ (∃ c₀, (alookup (colorStep s r).kw_colors r.file).bind
            (fun m => alookup m r.kw) = some c₀) := by
      by_cases hrf : r.file = cf
      · have hsame : some r.file = s.cur_file := by
          rw [hcur, hrf]
        obtain ⟨m₀, hm₀⟩ := hex
        have hm0' : alookup s.kw_colors r.file = some m₀ := by
          rw [hrf, hm₀]
        cases hkk : alookup m₀ r.kw with
        | some c₀ =>
          rw [colorStep_same_found s r hsame hm0' hkk]
          refine ⟨hsame.symm ▸ rfl, ⟨m₀, hm0'⟩, ⟨c₀, ?_⟩⟩
          rw [hm0']
          simp only [Option.some_bind]
          exact hkk
        | none =>
          rw [colorStep_same_newkw s r hsame hm0' hkk]
          refine ⟨?_, ?_, ?_⟩
          · show s.cur_file = some r.file
            rw [hcur, hrf]
          · show ∃ m', alookup (aupd s.kw_colors r.file
                (aupd m₀ r.kw (kColor (!s.kw_toggle)))) r.file = some m'
            exact ⟨_, alookup_aupd_self _ _ _⟩
          · show ∃ c₀, (alookup (aupd s.kw_colors r.file
                (aupd m₀ r.kw (kColor (!s.kw_toggle)))) r.file).bind
                (fun m => alookup m r.kw) = some c₀
            rw [alookup_aupd_self]
            simp only [Option.some_bind]
            exact ⟨_, alookup_aupd_self _ _ _⟩
      · have hne : some r.file ≠ s.cur_file := by
          rw [hcur]
          intro hh
          injection hh with hh'
          exact hrf hh'
        rw [colorStep_new s r hne]
        refine ⟨rfl, ?_, ?_⟩
        · exact ⟨_, alookup_aupd_self _ _ _⟩
        · show ∃ c₀, (alookup (aupd s.kw_colors r.file [(r.kw, color_b1)])
              r.file).bind (fun m => alookup m r.kw) = some c₀
          rw [alookup_aupd_self]
          simp only [Option.some_bind]
          exact ⟨color_b1, by simp [alookup]⟩
    obtain ⟨hcur', hex', c₀, hc₀⟩ := hkey
    rcases List.mem_cons.mp hr' with h1 | h1
    · rw [hstep, h1]
      exact ⟨c₀, assign_kw_preserve rest (colorStep s r) r.file r.kw c₀
        (Or.inl ⟨hcur', hcontig1⟩) hc₀⟩
    · rw [hstep]
      exact ih (colorStep s r) r.file hcur' hex' hcontig1 r' h1

theorem recLe_file {r s : MatchRec} (h : recLe r s = true) :
    strLe r.file s.file = true := by
  unfold recLe at h
  by_cases hf : r.file = s.file
  · rw [hf]
    exact strLe_refl _
  · rw [if_neg hf] at h
    exact h

/-- The file column of the sorted record list is contiguous. -/
theorem contig_sorted_files (data : List MatchRec) :
    Contig ((sortRecords data).map (fun r => r.file)) := by
  refine contig_of_pairwise _ ?_
  rw [List.pairwise_map]
  exact (List.sorted_mergeSort recLe_trans recLe_total data).imp
    (fun h => recLe_file h)

/-- C7: in the render plan computed from the sorted record list, records
with the same file path receive the same (existing) file-band color, records
with the same (file, keyword) pair receive the same (existing) keyword-band
color, and two adjacent records in distinct files never receive the same
file-band color. -/
theorem C7_banding_invariant (data : List MatchRec) :
    (∀ r ∈ sortRecords data, ∃ c, fileColorOf (renderPlan data) r = some c)
      ∧ (∀ r ∈ sortRecords data, ∀ s ∈ sortRecords data, r.file = s.file →
          fileColorOf (renderPlan data) r = fileColorOf (renderPlan data) s)
      ∧ (∀ r ∈ sortRecords data, ∃ c, kwColorOf (renderPlan data) r = some c)
      ∧ (∀ r ∈ sortRecords data, ∀ s ∈ sortRecords data,
          r.file = s.file → r.kw = s.kw →
          kwColorOf (renderPlan data) r = kwColorOf (renderPlan data) s)
      ∧ List.Chain'
          (fun r s => r.file ≠ s.file →
            fileColorOf (renderPlan data) r ≠ fileColorOf (renderPlan data) s)
          (sortRecords data) := by
  have hsame : ∀ cs : ColorState, ∀ r s : MatchRec, r.file = s.file →
      fileColorOf cs r = fileColorOf cs s := by
    intro cs r s h
    unfold fileColorOf
    rw [h]
  have hsamek : ∀ cs : ColorState, ∀ r s : MatchRec, r.file = s.file →
      r.kw = s.kw → kwColorOf cs r = kwColorOf cs s := by
    intro cs r s h hk
    unfold kwColorOf
    rw [h, hk]
  have hplan : renderPlan data = assignColors (sortRecords data) initColorState := rfl
  have hcontig := contig_sorted_files data
  cases hl : sortRecords data with
  | nil =>
    refine ⟨?_, ?_, ?_, ?_, ?_⟩
    · intro r hr; cases hr
    · intro r hr; cases hr
    · intro r hr; cases hr
    · intro r hr; cases hr
    · exact List.chain'_nil
  | cons r₀ rest =>
    rw [hl] at hcontig
    rw [List.map_cons] at hcontig
    have hne : some r₀.file ≠ initColorState.cur_file := by
      show some r₀.file ≠ none
      simp
    have hplan' : renderPlan data
        = assignColors rest (colorStep initColorState r₀) := by
      rw [hplan, hl]
      rfl
    set s₁ := colorStep initColorState r₀ with hs₁def
    have hs₁ : s₁
        = { file_colors := aupd initColorState.file_colors r₀.file
              (fColor (!initColorState.file_toggle)),
            kw_colors := aupd initColorState.kw_colors r₀.file
              [(r₀.kw, color_b1)],
            cur_file := some r₀.file,
            file_toggle := !initColorState.file_toggle,
            kw_toggle := true } :=
      colorStep_new initColorState r₀ hne
    have hcur₁ : s₁.cur_file = some r₀.file := by
      rw [hs₁]
    have hlook₁ : alookup s₁.file_colors r₀.file
        = some (fColor s₁.file_toggle) := by
      rw [hs₁]
      exact alookup_aupd_self _ _ _
    obtain ⟨m1, m2, m3⟩ := assign_main rest s₁ r₀.file hcur₁ hlook₁ hcontig
    have hkwlook₁ : alookup s₁.kw_colors r₀.file = some [(r₀.kw, color_b1)] := by
      rw [hs₁]
      exact alookup_aupd_self _ _ _
    have hkwbind₁ : (alookup s₁.kw_colors r₀.file).bind
        (fun m => alookup m r₀.kw) = some color_b1 := by
      rw [hkwlook₁]
      simp [alookup]
    have hkwex := assign_kw_exists rest s₁ r₀.file hcur₁ ⟨_, hkwlook₁⟩ hcontig
    have hkw₀ := assign_kw_preserve rest s₁ r₀.file r₀.kw color_b1
      (Or.inl ⟨hcur₁, hcontig⟩) hkwbind₁
    refine ⟨?_, ?_, ?_, ?_, ?_⟩
    · intro r hr
      rw [hplan']
      rcases List.mem_cons.mp hr with h1 | h1
      · rw [h1]
        exact ⟨_, m1⟩
      · exact m3 r.file (List.mem_map_of_mem _ h1)
    · intro r hr s hs h
      exact hsame _ r s h
    · intro r hr
      rw [hplan']
      rcases List.mem_cons.mp hr with h1 | h1
      · rw [h1]
        exact ⟨color_b1, hkw₀⟩
      · exact hkwex r h1
    · intro r hr s hs h hk
      exact hsamek _ r s h hk
    · rw [hplan']
      have hmapped : List.Chain'
          (fun a b => a ≠ b →
            alookup (assignColors rest s₁).file_colors a
              ≠ alookup (assignColors rest s₁).file_colors b)
          ((r₀ :: rest).map (fun r => r.file)) := by
        rw [List.map_cons]
        exact m2
      rw [List.chain'_map] at hmapped
      exact hmapped

/-- C9: the compiled pattern `\b` + `re.escape(keyword)` + `\b`
(`search.py:129`) finds a keyword in a line exactly when the keyword's
characters occur verbatim at a position that is word-boundary delimited on
both sides: `re.escape` turns every regex metacharacter of the keyword into
a literal, and the surrounding `\b` assertions admit whole-word occurrences
only, never mere substrings.  Python's `\b` is defined from its
Unicode-aware `\w` classification, which cannot be tabulated in this
embedding, so the statement is parametric in the word-character classifier
`w`: it holds for every classifier, in particular for Python's (the
scanner's executable `lineHit` instantiates `w` with the ASCII fragment). -/
theorem C9_whole_word_literal_matching (w : Char → Bool) (kw line : Str) :
    lineHitW w kw line = true
      ↔ ∃ i, occursAt kw line i
          ∧ wordBoundaryW w line i = true
          ∧ wordBoundaryW w line (i + kw.length) = true :=
  lineHit_iff w kw line

end GrepSearch
